import Mathlib

/-!
Verification of the hand-written lexical analyzer in `exam/lab06.py`
(`LexicalAnalyzer`).  The scanner state (`source`, `pos`, `line`, `column`,
`current_char`) is embedded as the structure `Cursor`; the symbol table is an
association list preserving insertion order, as a Python dict does.  Loops are
embedded as fuel-indexed structural recursions; the top-level `tokenize`
supplies fuel `source.length + 2`, which the sufficiency lemmas below show is
never exhausted.  Python `float(...)` is modelled as an exact rational value,
and the `str.isalpha` / `isdigit` / `isspace` classifiers are modelled over
their ASCII ranges, which the analyzed inputs use.
-/

namespace Lab06

/-- Token kinds, mirroring the `TokenType` enum of `lab06.py`. -/
inductive TokenType where
  | IF | ELSE | WHILE | FOR | INT | FLOAT | CHAR | VOID | RETURN
  | IDENTIFIER | INTEGER | FLOAT_LITERAL | STRING | CHAR_LITERAL
  | PLUS | MINUS | MULTIPLY | DIVIDE | ASSIGN | EQ | NE | LT | GT | LE | GE
  | LPAREN | RPAREN | LBRACE | RBRACE | SEMICOLON | COMMA
  | EOF | ERROR
deriving DecidableEq, Repr

/-- An exact decimal fraction `mantissa / 10 ^ scale`, the model of the value
Python `float(...)` decodes from a digits-and-one-dot literal. -/
structure PyFloat where
  mantissa : Nat
  scale : Nat
deriving DecidableEq, Repr

/-- The rational value of a decoded float. -/
def PyFloat.toRat (v : PyFloat) : ℚ :=
  (v.mantissa : ℚ) / (10 : ℚ) ^ v.scale

/-- Token payloads: the lexeme text for identifiers, keywords, operators and
the (quote-stripped) content of string and character literals; decoded numbers
for numeric literals (`float` modelled as an exact decimal fraction); `none`
for the EOF token, mirroring `Token(TokenType.EOF, None, ...)`. -/
inductive TokenValue where
  | str : String → TokenValue
  | int : Nat → TokenValue
  | float : PyFloat → TokenValue
  | none : TokenValue
deriving DecidableEq, Repr

/-- A token as produced by `lab06.py` (`Token.__init__`). -/
structure Token where
  type : TokenType
  value : TokenValue
  line : Nat
  column : Nat
deriving DecidableEq, Repr

/-- The data carried by the `LexicalError` exception of `lab06.py`. -/
structure LexicalError where
  message : String
  line : Nat
  column : Nat
deriving DecidableEq, Repr

/-- One symbol-table entry: `{'first_seen': (line, column), 'occurrences': [...]}`. -/
structure SymEntry where
  first_seen : Nat × Nat
  occurrences : List (Nat × Nat)
deriving DecidableEq, Repr

/-- The symbol table: a Python dict from identifier lexeme to its entry,
modelled as an insertion-ordered association list with unique keys. -/
abbrev Table := List (String × SymEntry)

/-- Association-list lookup, modelling Python dict indexing and `in`. -/
def assocLookup {α : Type} : List (String × α) → String → Option α
  | [], _ => Option.none
  | (k, v) :: rest, key => if k = key then some v else assocLookup rest key

/-- ASCII model of Python `str.isdigit`. -/
def pyIsDigit (ch : Char) : Bool :=
  decide ('0' ≤ ch ∧ ch ≤ '9')

/-- ASCII model of Python `str.isalpha`. -/
def pyIsAlpha (ch : Char) : Bool :=
  decide (('a' ≤ ch ∧ ch ≤ 'z') ∨ ('A' ≤ ch ∧ ch ≤ 'Z'))

/-- ASCII model of Python `str.isalnum`. -/
def pyIsAlnum (ch : Char) : Bool :=
  pyIsAlpha ch || pyIsDigit ch

/-- ASCII model of Python `str.isspace`. -/
def pyIsSpace (ch : Char) : Bool :=
  ch == ' ' || ch == '\t' || ch == '\n' || ch == '\r' || ch == '\x0b' || ch == '\x0c'

/-- The keyword table of `LexicalAnalyzer.__init__`. -/
def keywords : List (String × TokenType) :=
  [("if", .IF), ("else", .ELSE), ("while", .WHILE), ("for", .FOR),
   ("int", .INT), ("float", .FLOAT), ("char", .CHAR), ("void", .VOID),
   ("return", .RETURN)]

/-- The operator table of `LexicalAnalyzer.__init__`. -/
def operators : List (String × TokenType) :=
  [("+", .PLUS), ("-", .MINUS), ("*", .MULTIPLY), ("/", .DIVIDE),
   ("=", .ASSIGN), ("==", .EQ), ("!=", .NE), ("<", .LT), (">", .GT),
   ("<=", .LE), (">=", .GE), ("(", .LPAREN), (")", .RPAREN),
   ("\x7b", .LBRACE), ("\x7d", .RBRACE), (";", .SEMICOLON), (",", .COMMA)]

/-- The escape set accepted inside string literals (`read_string`). -/
def stringEscapes : List Char := ['n', 't', '"', '\\']

/-- The escape set accepted inside character literals (`read_char_literal`).
Note the apostrophe in place of the double quote. -/
def charEscapes : List Char := ['n', 't', '\'', '\\']

/-- Digits-to-number decoding, modelling Python `int(...)` on a digit string. -/
def decodeDigits (cs : List Char) : Nat :=
  cs.foldl (fun a c => a * 10 + (c.toNat - '0'.toNat)) 0

/-- Model of Python `float(...)` on a digit string with at most one dot:
the exact decimal value written by the digits. -/
def pyFloat (s : String) : PyFloat :=
  let l := s.toList
  let ip := l.takeWhile (fun c => c != '.')
  let fp := (l.dropWhile (fun c => c != '.')).drop 1
  ⟨decodeDigits (ip ++ fp), fp.length⟩

/-- The mutable scanner fields of `LexicalAnalyzer`: `source`, `pos`, `line`,
`column` and `current_char`. -/
structure Cursor where
  source : List Char
  pos : Nat
  line : Nat
  column : Nat
  currentChar : Option Char
deriving DecidableEq, Repr

/-- The whole analyzer object: scanner fields plus the symbol table. -/
structure LexicalAnalyzer where
  symbolTable : Table
  cur : Cursor
deriving DecidableEq, Repr

/-- `LexicalAnalyzer.__init__`: empty symbol table, empty source, fresh cursor. -/
def newAnalyzer : LexicalAnalyzer :=
  { symbolTable := [],
    cur := { source := [], pos := 0, line := 1, column := 1, currentChar := Option.none } }

/-- `advance`: load `source[pos]` as the current character and move `pos` and
`column` one ahead, or set the end sentinel once `pos` passes the end. -/
def advance (c : Cursor) : Cursor :=
  if c.source.length ≤ c.pos then
    { c with currentChar := Option.none }
  else
    { c with currentChar := c.source.get? c.pos, pos := c.pos + 1, column := c.column + 1 }

/-- `peek`: the character at `pos` (one ahead of the current character),
without consuming it. -/
def peek (c : Cursor) : Option Char :=
  c.source.get? c.pos

/-- `init_scanner`: reset the scanner fields for a new source text and load
the first character.  The symbol table is left untouched, exactly as in the
Python code. -/
def init_scanner (a : LexicalAnalyzer) (source : String) : LexicalAnalyzer :=
  { a with cur := advance { source := source.toList, pos := 0, line := 1, column := 1,
                            currentChar := Option.none } }

/-- `skip_whitespace`: consume whitespace, bumping `line` and resetting
`column` when the consumed character is a newline. -/
def skip_whitespace : Nat → Cursor → Cursor
  | 0, c => c
  | fuel + 1, c =>
    match c.currentChar with
    | some ch =>
      if pyIsSpace ch then
        skip_whitespace fuel
          (advance (if ch = '\n' then { c with line := c.line + 1, column := 1 } else c))
      else c
    | Option.none => c

/-- The single-line-comment loop of `skip_comment`: consume up to, but not
including, the next newline or the end of input. -/
def line_comment_loop : Nat → Cursor → Cursor
  | 0, c => c
  | fuel + 1, c =>
    match c.currentChar with
    | some ch => if ch = '\n' then c else line_comment_loop fuel (advance c)
    | Option.none => c

/-- The multi-line-comment loop of `skip_comment`: consume until `*/` is
consumed, tracking newlines; reaching end of input is not an error. -/
def block_comment_loop : Nat → Cursor → Cursor
  | 0, c => c
  | fuel + 1, c =>
    match c.currentChar with
    | some ch =>
      if ch = '*' ∧ peek c = some '/' then advance (advance c)
      else
        block_comment_loop fuel
          (advance (if ch = '\n' then { c with line := c.line + 1, column := 1 } else c))
    | Option.none => c

/-- `skip_comment`: dispatch on `//` versus `/*`. -/
def skip_comment (fuel : Nat) (c : Cursor) : Cursor :=
  if c.currentChar = some '/' ∧ peek c = some '/' then
    line_comment_loop fuel c
  else if c.currentChar = some '/' ∧ peek c = some '*' then
    block_comment_loop fuel (advance (advance c))
  else c

/-- The greedy identifier loop of `read_identifier`. -/
def ident_loop : Nat → Cursor → String → String × Cursor
  | 0, c, acc => (acc, c)
  | fuel + 1, c, acc =>
    match c.currentChar with
    | some ch =>
      if pyIsAlnum ch = true ∨ ch = '_' then ident_loop fuel (advance c) (acc.push ch)
      else (acc, c)
    | Option.none => (acc, c)

/-- `record`: the symbol-table update of `read_identifier` — create the entry
with `first_seen` at the given location if the lexeme is new, then append the
location to its occurrence list. -/
def record (tbl : Table) (name : String) (loc : Nat × Nat) : Table :=
  let created :=
    if (assocLookup tbl name).isNone then tbl ++ [(name, ⟨loc, []⟩)] else tbl
  created.map (fun p =>
    if p.1 = name then (p.1, ⟨p.2.first_seen, p.2.occurrences ++ [loc]⟩) else p)

/-- `read_identifier`: greedily read an identifier or keyword, emit the token
and record identifier occurrences in the symbol table. -/
def read_identifier (fuel : Nat) (c : Cursor) (tbl : Table) : Token × Cursor × Table :=
  let start_column := c.column
  let (result, c') := ident_loop fuel c ("")
  match assocLookup keywords result with
  | some kw => (⟨kw, .str result, c'.line, start_column⟩, c', tbl)
  | Option.none =>
    (⟨.IDENTIFIER, .str result, c'.line, start_column⟩, c',
      record tbl result (c'.line, start_column))

/-- The digit-and-dot loop of `read_number`; a second dot raises
`Invalid float literal` at the current location. -/
def number_loop : Nat → Cursor → String → Bool → Except LexicalError (String × Bool × Cursor)
  | 0, c, acc, isFloat => .ok (acc, isFloat, c)
  | fuel + 1, c, acc, isFloat =>
    match c.currentChar with
    | some ch =>
      if ch = '.' then
        if isFloat then .error ⟨("Invalid float literal"), c.line, c.column⟩
        else number_loop fuel (advance c) (acc.push ch) true
      else if pyIsDigit ch then number_loop fuel (advance c) (acc.push ch) isFloat
      else .ok (acc, isFloat, c)
    | Option.none => .ok (acc, isFloat, c)

/-- `read_number`: read an integer or float literal and decode its value. -/
def read_number (fuel : Nat) (c : Cursor) : Except LexicalError (Token × Cursor) :=
  let start_column := c.column
  match number_loop fuel c ("") false with
  | .error e => .error e
  | .ok (result, isFloat, c') =>
    if isFloat then .ok (⟨.FLOAT_LITERAL, .float (pyFloat result), c'.line, start_column⟩, c')
    else .ok (⟨.INTEGER, .int (decodeDigits result.toList), c'.line, start_column⟩, c')

/-- The body loop of `read_string`: consume characters up to the closing
quote, keeping recognized escapes in their two-character source form and
rejecting unrecognized ones. -/
def string_loop : Nat → Cursor → String → Except LexicalError (String × Cursor)
  | 0, c, acc => .ok (acc, c)
  | fuel + 1, c, acc =>
    match c.currentChar with
    | some ch =>
      if ch = '"' then .ok (acc, c)
      else if ch = '\\' then
        match (advance c).currentChar with
        | some esc =>
          if esc ∈ stringEscapes then
            string_loop fuel (advance (advance c)) ((acc.push '\\').push esc)
          else .error ⟨("Invalid escape sequence"), (advance c).line, (advance c).column⟩
        | Option.none =>
          .error ⟨("Invalid escape sequence"), (advance c).line, (advance c).column⟩
      else string_loop fuel (advance c) (acc.push ch)
    | Option.none => .ok (acc, c)

/-- `read_string`: consume the opening quote, run the body loop, and demand a
closing quote; its absence is `Unterminated string literal` reported at the
start column. -/
def read_string (fuel : Nat) (c : Cursor) : Except LexicalError (Token × Cursor) :=
  let start_column := c.column
  match string_loop fuel (advance c) ("") with
  | .error e => .error e
  | .ok (result, c') =>
    match c'.currentChar with
    | Option.none => .error ⟨("Unterminated string literal"), c'.line, start_column⟩
    | some _ => .ok (⟨.STRING, .str result, (advance c').line, start_column⟩, advance c')

/-- The shared tail of `read_char_literal`: after the single character or
escape, consume it and demand the closing quote. -/
def char_tail (start_column : Nat) (value : String) (c : Cursor) :
    Except LexicalError (Token × Cursor) :=
  let c' := advance c
  if c'.currentChar = some '\'' then
    .ok (⟨.CHAR_LITERAL, .str value, (advance c').line, start_column⟩, advance c')
  else .error ⟨("Unterminated character literal"), c'.line, start_column⟩

/-- `read_char_literal`: one character or one recognized escape between
mandatory quotes; note its escape set differs from the string one. -/
def read_char_literal (c : Cursor) : Except LexicalError (Token × Cursor) :=
  let start_column := c.column
  let c1 := advance c
  match c1.currentChar with
  | Option.none => .error ⟨("Unterminated character literal"), c1.line, start_column⟩
  | some ch =>
    if ch = '\\' then
      match (advance c1).currentChar with
      | some esc =>
        if esc ∈ charEscapes then
          char_tail start_column (String.mk ['\\', esc]) (advance c1)
        else .error ⟨("Invalid escape sequence"), (advance c1).line, (advance c1).column⟩
      | Option.none =>
        .error ⟨("Invalid escape sequence"), (advance c1).line, (advance c1).column⟩
    else char_tail start_column (String.mk [ch]) c1

/-- `get_next_token`: the dispatch loop of the scanner.  The fuel only bounds
the whitespace/comment elision loop; `tokenize` supplies enough of it. -/
def get_next_token : Nat → Cursor → Table → Except LexicalError (Token × Cursor × Table)
  | 0, c, tbl => .ok (⟨.EOF, .none, c.line, c.column⟩, c, tbl)
  | fuel + 1, c, tbl =>
    match c.currentChar with
    | Option.none => .ok (⟨.EOF, .none, c.line, c.column⟩, c, tbl)
    | some ch =>
      if pyIsSpace ch then get_next_token fuel (skip_whitespace (fuel + 1) c) tbl
      else if ch = '/' ∧ (peek c = some '/' ∨ peek c = some '*') then
        get_next_token fuel (skip_comment (fuel + 1) c) tbl
      else if pyIsAlpha ch = true ∨ ch = '_' then .ok (read_identifier (fuel + 1) c tbl)
      else if pyIsDigit ch then
        match read_number (fuel + 1) c with
        | .error e => .error e
        | .ok (t, c') => .ok (t, c', tbl)
      else if ch = '"' then
        match read_string (fuel + 1) c with
        | .error e => .error e
        | .ok (t, c') => .ok (t, c', tbl)
      else if ch = '\'' then
        match read_char_literal c with
        | .error e => .error e
        | .ok (t, c') => .ok (t, c', tbl)
      else if ch ∈ ['=', '!', '<', '>'] ∧ peek c = some '=' then
        let c2 := advance (advance c)
        let op := String.mk [ch, '=']
        .ok (⟨(assocLookup operators op).getD .ERROR, .str op, c2.line, c2.column - 2⟩, c2, tbl)
      else
        match assocLookup operators (String.mk [ch]) with
        | some ty =>
          let c2 := advance c
          .ok (⟨ty, .str (String.mk [ch]), c2.line, c2.column - 1⟩, c2, tbl)
        | Option.none =>
          .error ⟨(("Invalid character: ").append (String.mk [ch])), c.line, c.column⟩

/-- The driver loop of `tokenize`: collect tokens until EOF (inclusive) or a
lexical error.  On an error the tokens collected so far are dropped and the
error is carried out together with the symbol table as mutated so far. -/
def tokenize_loop : Nat → Cursor → Table → List Token →
    Except (LexicalError × Cursor × Table) (List Token × Cursor × Table)
  | 0, c, tbl, acc => .ok (acc, c, tbl)
  | fuel + 1, c, tbl, acc =>
    match get_next_token (fuel + 1) c tbl with
    | .error e => .error (e, c, tbl)
    | .ok (t, c', tbl') =>
      if t.type = TokenType.EOF then .ok (acc ++ [t], c', tbl')
      else tokenize_loop fuel c' tbl' (acc ++ [t])

/-- The fuel budget handed to the driver: enough for every source text, as the
sufficiency lemmas below establish. -/
def lexFuel (source : String) : Nat := source.length + 2

/-- `tokenize`: initialize the scanner (the symbol table is not reset) and run
the driver.  The Python method prints the error and returns `[]`; the printed
diagnostic is modelled as the `Option LexicalError` component. -/
def tokenize (a : LexicalAnalyzer) (source : String) :
    (List Token × Option LexicalError) × LexicalAnalyzer :=
  let a0 := init_scanner a source
  match tokenize_loop (lexFuel source) a0.cur a0.symbolTable [] with
  | .ok (ts, c, tbl) => ((ts, Option.none), ⟨tbl, c⟩)
  | .error (e, c, tbl) => (([], some e), ⟨tbl, c⟩)

/-- The input still to be scanned: the current character followed by the
characters after `pos`; empty at the end sentinel. -/
def rem (c : Cursor) : List Char :=
  match c.currentChar with
  | some ch => ch :: c.source.drop c.pos
  | Option.none => []

/-- The table resulting from a driver run, in either outcome. -/
def outTable :
    Except (LexicalError × Cursor × Table) (List Token × Cursor × Table) → Table
  | .ok (_, _, tbl) => tbl
  | .error (_, _, tbl) => tbl

/-- Table evolution within one scanning session: every entry keeps its
`first_seen` value and its occurrence list only grows at the end. -/
def tablePreserves (t t' : Table) : Prop :=
  ∀ w e, assocLookup t w = some e →
    ∃ e', assocLookup t' w = some e' ∧ e'.first_seen = e.first_seen ∧
      ∃ extra, e'.occurrences = e.occurrences ++ extra

/-- The text a token contributes when the token stream is concatenated back:
the stored value, with decoded numeric values rendered in decimal.  Built from
the strongest reading the data model allows, since tokens do not retain the
original lexeme for literals. -/
def tokenText (t : Token) : String :=
  match t.value with
  | .str s => s
  | .int n => Nat.repr n
  | .float v => (Nat.repr v.mantissa).append ((("e-")).append (Nat.repr v.scale))
  | .none => ("")

/-- Concatenation of the token texts, in order. -/
def concatValues (ts : List Token) : String :=
  ts.foldl (fun acc t => acc.append (tokenText t)) ("")

/-- True when the character list never contains the two-character sequence
that closes a block comment. -/
def noStarSlash : List Char → Bool
  | [] => true
  | [_] => true
  | a :: b :: rest => if a = '*' ∧ b = '/' then false else noStarSlash (b :: rest)

/-- Input consisting only of whitespace and well-formed comments, written from
the words of the specification: blank input is empty, or whitespace followed
by blank input, or a single-line comment closed by a newline (or running to
the end of input) followed by blank input, or a properly closed multi-line
comment followed by blank input. -/
inductive Blank : List Char → Prop where
  | nil : Blank []
  | ws (ch : Char) (rest : List Char) : pyIsSpace ch = true → Blank rest →
      Blank (ch :: rest)
  | lineComment (body rest : List Char) : (∀ x ∈ body, x ≠ '\n') → Blank rest →
      Blank ('/' :: '/' :: (body ++ '\n' :: rest))
  | lineCommentAtEnd (body : List Char) : (∀ x ∈ body, x ≠ '\n') →
      Blank ('/' :: '/' :: body)
  | blockComment (body rest : List Char) : noStarSlash body = true → Blank rest →
      Blank ('/' :: '*' :: (body ++ '*' :: '/' :: rest))

theorem advance_line (c : Cursor) : (advance c).line = c.line := by
  unfold advance
  split <;> rfl

theorem advance_source (c : Cursor) : (advance c).source = c.source := by
  unfold advance
  split <;> rfl

theorem rem_nil_iff (c : Cursor) : rem c = [] ↔ c.currentChar = Option.none := by
  unfold rem
  cases c.currentChar <;> simp

theorem rem_setLineCol (c : Cursor) (l co : Nat) :
    rem { c with line := l, column := co } = rem c := by
  unfold rem
  rfl

theorem get?_eq_head?_drop {α : Type} (l : List α) (n : Nat) :
    l.get? n = (l.drop n).head? := by
  induction l generalizing n with
  | nil => cases n <;> rfl
  | cons x xs ih =>
    cases n with
    | zero => rfl
    | succ m => exact ih m

theorem drop_succ_eq_tail_drop {α : Type} (l : List α) (n : Nat) :
    l.drop (n + 1) = (l.drop n).tail := by
  induction l generalizing n with
  | nil => simp
  | cons x xs ih =>
    cases n with
    | zero => rfl
    | succ m => exact ih m

theorem drop_nil_of_le {α : Type} (l : List α) (n : Nat) (h : l.length ≤ n) :
    l.drop n = [] := by
  have hlen : (l.drop n).length = 0 := by
    rw [List.length_drop]
    omega
  exact List.eq_nil_of_length_eq_zero hlen

theorem rem_of_some (c : Cursor) (a : Char) (hcc : c.currentChar = some a) :
    rem c = a :: c.source.drop c.pos := by
  unfold rem
  rw [hcc]

theorem rem_split (c : Cursor) (ch : Char) (t : List Char) (h : rem c = ch :: t) :
    c.currentChar = some ch ∧ c.source.drop c.pos = t := by
  cases hcc : c.currentChar with
  | none => rw [(rem_nil_iff c).mpr hcc] at h; exact absurd h (by simp)
  | some a =>
    rw [rem_of_some c a hcc] at h
    have h1 : a = ch := (List.cons.injEq _ _ _ _ ▸ h).1
    cases h1
    exact ⟨rfl, (List.cons.injEq _ _ _ _ ▸ h).2⟩

theorem rem_cons (c : Cursor) (ch : Char) (t : List Char) (h : rem c = ch :: t) :
    c.currentChar = some ch ∧ rem (advance c) = t := by
  obtain ⟨hcc, hdrop⟩ := rem_split c ch t h
  refine ⟨hcc, ?_⟩
  unfold advance
  by_cases hle : c.source.length ≤ c.pos
  · rw [if_pos hle]
    rw [drop_nil_of_le _ _ hle] at hdrop
    unfold rem
    simp [← hdrop]
  · rw [if_neg hle]
    push_neg at hle
    unfold rem
    simp only
    rw [get?_eq_head?_drop, hdrop]
    cases t with
    | nil =>
      have : c.source.length - c.pos = 0 := by
        have := congrArg List.length hdrop
        rwa [List.length_drop] at this
      omega
    | cons th tt =>
      simp only [List.head?]
      rw [drop_succ_eq_tail_drop, hdrop]
      rfl

theorem peek_of_rem (c : Cursor) (a b : Char) (t : List Char)
    (h : rem c = a :: b :: t) : peek c = some b := by
  obtain ⟨hcc, hdrop⟩ := rem_split c a (b :: t) h
  unfold peek
  rw [get?_eq_head?_drop, hdrop]
  rfl

theorem peek_of_rem_single (c : Cursor) (a : Char) (h : rem c = [a]) :
    peek c = Option.none := by
  obtain ⟨hcc, hdrop⟩ := rem_split c a [] h
  unfold peek
  rw [get?_eq_head?_drop, hdrop]
  rfl

theorem advance_fields_of_rem (c : Cursor) (a b : Char) (t : List Char)
    (h : rem c = a :: b :: t) :
    (advance c).pos = c.pos + 1 ∧ (advance c).column = c.column + 1 := by
  obtain ⟨hcc, hdrop⟩ := rem_split c a (b :: t) h
  have hlt : c.pos < c.source.length := by
    by_contra hle
    push_neg at hle
    rw [drop_nil_of_le _ _ hle] at hdrop
    exact absurd hdrop (by simp)
  unfold advance
  rw [if_neg (by omega)]
  exact ⟨rfl, rfl⟩

theorem lineAdjust_currentChar (c : Cursor) (b : Char) (hcc : c.currentChar = some b) :
    (if b = '\n' then { c with line := c.line + 1, column := 1 } else c).currentChar
      = some b := by
  split <;> exact hcc

theorem lineAdjust_rem (c : Cursor) (b : Char) :
    rem (if b = '\n' then { c with line := c.line + 1, column := 1 } else c) = rem c := by
  split
  · exact rem_setLineCol c _ _
  · rfl

theorem skip_whitespace_rem : ∀ (fuel : Nat) (c : Cursor), (rem c).length ≤ fuel →
    rem (skip_whitespace fuel c) = (rem c).dropWhile pyIsSpace := by
  intro fuel
  induction fuel with
  | zero =>
    intro c hlen
    have hnil : rem c = [] := List.eq_nil_of_length_eq_zero (Nat.le_zero.mp hlen)
    rw [skip_whitespace, hnil]
    rfl
  | succ fuel ih =>
    intro c hlen
    cases hrc : rem c with
    | nil =>
      have hcc := (rem_nil_iff c).mp hrc
      simp only [skip_whitespace, hcc]
      rw [hrc]
      rfl
    | cons ch t =>
      obtain ⟨hcc, hadv⟩ := rem_cons c ch t hrc
      by_cases hsp : pyIsSpace ch = true
      · have hcif := lineAdjust_currentChar c ch hcc
        have hremif : rem (if ch = '\n' then { c with line := c.line + 1, column := 1 }
            else c) = ch :: t := by rw [lineAdjust_rem, hrc]
        obtain ⟨_, hadv2⟩ := rem_cons _ ch t hremif
        rw [hcc] at hadv2
        simp only [skip_whitespace, hcc, hsp, if_true]
        rw [ih _ (by rw [hadv2]; have := congrArg List.length hrc; simp at this; omega),
          hadv2, List.dropWhile_cons, hsp]
        rfl
      · simp only [skip_whitespace, hcc]
        rw [if_neg hsp, hrc, List.dropWhile_cons, if_neg hsp]

theorem line_comment_loop_rem : ∀ (body : List Char) (fuel : Nat) (c : Cursor)
    (rest : List Char), rem c = body ++ rest → (∀ x ∈ body, x ≠ '\n') →
    (∀ r t, rest = r :: t → r = '\n') → body.length ≤ fuel →
    rem (line_comment_loop fuel c) = rest := by
  intro body
  induction body with
  | nil =>
    intro fuel c rest hrem hb hr hlen
    rw [List.nil_append] at hrem
    cases fuel with
    | zero => rw [line_comment_loop]; exact hrem
    | succ f =>
      cases rest with
      | nil =>
        have hcc := (rem_nil_iff c).mp hrem
        simp only [line_comment_loop, hcc]
        exact hrem
      | cons r t =>
        obtain ⟨hcc, _⟩ := rem_split c r t hrem
        have hrn : r = '\n' := hr r t rfl
        simp only [line_comment_loop, hcc]
        rw [if_pos hrn]
        exact hrem
  | cons b bs ih =>
    intro fuel c rest hrem hb hr hlen
    cases fuel with
    | zero => simp at hlen
    | succ f =>
      rw [List.cons_append] at hrem
      obtain ⟨hcc, hadv⟩ := rem_cons c b (bs ++ rest) hrem
      have hbn : b ≠ '\n' := hb b (by simp)
      simp only [line_comment_loop, hcc, if_neg hbn]
      exact ih f (advance c) rest hadv (fun x hx => hb x (by simp [hx]))
        hr (by simp at hlen; omega)

theorem noStarSlash_tail (a : Char) (l : List Char) (h : noStarSlash (a :: l) = true) :
    noStarSlash l = true := by
  cases l with
  | nil => rfl
  | cons b r =>
    unfold noStarSlash at h
    by_cases hab : a = '*' ∧ b = '/'
    · rw [if_pos hab] at h; exact absurd h (by simp)
    · rwa [if_neg hab] at h

theorem block_comment_loop_rem : ∀ (body : List Char) (fuel : Nat) (c : Cursor)
    (rest : List Char), noStarSlash body = true →
    rem c = body ++ '*' :: '/' :: rest → body.length < fuel →
    rem (block_comment_loop fuel c) = rest := by
  intro body
  induction body with
  | nil =>
    intro fuel c rest hb hrem hlen
    rw [List.nil_append] at hrem
    cases fuel with
    | zero => omega
    | succ f =>
      obtain ⟨hcc, hadv⟩ := rem_cons c '*' ('/' :: rest) hrem
      have hpk := peek_of_rem c '*' '/' rest hrem
      obtain ⟨hcc2, hadv2⟩ := rem_cons (advance c) '/' rest hadv
      simp only [block_comment_loop, hcc]
      split
      · exact hadv2
      · next hcond => exact absurd ⟨by trivial, hpk⟩ hcond
  | cons b bs ih =>
    intro fuel c rest hb hrem hlen
    cases fuel with
    | zero => omega
    | succ f =>
      rw [List.cons_append] at hrem
      obtain ⟨hcc, hadv⟩ := rem_cons c b (bs ++ '*' :: '/' :: rest) hrem
      have hcond : ¬(b = '*' ∧ peek c = some '/') := by
        cases bs with
        | nil =>
          have hpk := peek_of_rem c b '*' ('/' :: rest) hrem
          rintro ⟨rfl, hpk2⟩
          rw [hpk] at hpk2
          exact absurd hpk2 (by simp)
        | cons b2 bs2 =>
          have hpk := peek_of_rem c b b2 (bs2 ++ '*' :: '/' :: rest) hrem
          rintro ⟨rfl, hpk2⟩
          rw [hpk] at hpk2
          have hb2 : b2 = '/' := by
            have := (Option.some.injEq _ _ ▸ hpk2)
            exact this
          subst hb2
          unfold noStarSlash at hb
          rw [if_pos ⟨rfl, rfl⟩] at hb
          exact absurd hb (by simp)
      have hcif := lineAdjust_currentChar c b hcc
      have hremif : rem (if b = '\n' then { c with line := c.line + 1, column := 1 }
          else c) = b :: (bs ++ '*' :: '/' :: rest) := by rw [lineAdjust_rem, hrem]
      obtain ⟨_, hadv2⟩ := rem_cons _ b (bs ++ '*' :: '/' :: rest) hremif
      rw [hcc] at hadv2
      simp only [block_comment_loop, hcc]
      rw [if_neg hcond]
      exact ih f _ rest (noStarSlash_tail b bs hb) hadv2 (by simp at hlen; omega)

theorem length_dropWhile_le' {α : Type} (p : α → Bool) (l : List α) :
    (l.dropWhile p).length ≤ l.length := by
  induction l with
  | nil => simp
  | cons x xs ih =>
    rw [List.dropWhile_cons]
    split
    · exact Nat.le_succ_of_le ih
    · exact Nat.le_refl _

theorem blank_dropWhile (l : List Char) (h : Blank l) :
    Blank (l.dropWhile pyIsSpace) := by
  induction h with
  | nil => exact Blank.nil
  | ws ch rest hsp _ ih => rwa [List.dropWhile_cons, if_pos hsp]
  | lineComment body rest hbody hrest ih =>
    rw [List.dropWhile_cons, if_neg (by decide)]
    exact Blank.lineComment body rest hbody hrest
  | lineCommentAtEnd body hbody =>
    rw [List.dropWhile_cons, if_neg (by decide)]
    exact Blank.lineCommentAtEnd body hbody
  | blockComment body rest hbody hrest ih =>
    rw [List.dropWhile_cons, if_neg (by decide)]
    exact Blank.blockComment body rest hbody hrest

theorem get_next_token_none (fuel : Nat) (c : Cursor) (tbl : Table)
    (hcc : c.currentChar = Option.none) :
    get_next_token (fuel + 1) c tbl = .ok (⟨.EOF, .none, c.line, c.column⟩, c, tbl) := by
  simp only [get_next_token, hcc]

theorem get_next_token_some (fuel : Nat) (c : Cursor) (tbl : Table) (ch : Char)
    (hcc : c.currentChar = some ch) :
    get_next_token (fuel + 1) c tbl =
      (if pyIsSpace ch then get_next_token fuel (skip_whitespace (fuel + 1) c) tbl
      else if ch = '/' ∧ (peek c = some '/' ∨ peek c = some '*') then
        get_next_token fuel (skip_comment (fuel + 1) c) tbl
      else if pyIsAlpha ch = true ∨ ch = '_' then .ok (read_identifier (fuel + 1) c tbl)
      else if pyIsDigit ch then
        match read_number (fuel + 1) c with
        | .error e => .error e
        | .ok (t, c') => .ok (t, c', tbl)
      else if ch = '"' then
        match read_string (fuel + 1) c with
        | .error e => .error e
        | .ok (t, c') => .ok (t, c', tbl)
      else if ch = '\'' then
        match read_char_literal c with
        | .error e => .error e
        | .ok (t, c') => .ok (t, c', tbl)
      else if ch ∈ ['=', '!', '<', '>'] ∧ peek c = some '=' then
        let c2 := advance (advance c)
        let op := String.mk [ch, '=']
        .ok (⟨(assocLookup operators op).getD .ERROR, .str op, c2.line, c2.column - 2⟩, c2, tbl)
      else
        match assocLookup operators (String.mk [ch]) with
        | some ty =>
          let c2 := advance c
          .ok (⟨ty, .str (String.mk [ch]), c2.line, c2.column - 1⟩, c2, tbl)
        | Option.none =>
          .error ⟨(("Invalid character: ").append (String.mk [ch])), c.line, c.column⟩) := by
  conv_lhs => rw [get_next_token]
  rw [hcc]

theorem get_next_token_blank : ∀ (fuel : Nat) (c : Cursor) (tbl : Table),
    (rem c).length ≤ fuel → Blank (rem c) →
    ∃ t c', get_next_token fuel c tbl = .ok (t, c', tbl) ∧
      t.type = .EOF ∧ t.value = .none := by
  intro fuel
  induction fuel with
  | zero =>
    intro c tbl hlen hb
    exact ⟨⟨.EOF, .none, c.line, c.column⟩, c, rfl, rfl, rfl⟩
  | succ fuel ih =>
    intro c tbl hlen hb
    cases hrc : rem c with
    | nil =>
      have hcc := (rem_nil_iff c).mp hrc
      exact ⟨⟨.EOF, .none, c.line, c.column⟩, c, get_next_token_none fuel c tbl hcc, rfl, rfl⟩
    | cons ch t =>
      rw [hrc] at hb
      obtain ⟨hcc, hadv⟩ := rem_cons c ch t hrc
      have hlc := congrArg List.length hrc
      simp only [List.length_cons] at hlc
      cases hb with
      | ws cv rv hsp hrest =>
        rw [get_next_token_some fuel c tbl ch hcc, if_pos hsp]
        have hsw := skip_whitespace_rem (fuel + 1) c (by omega)
        rw [hrc, List.dropWhile_cons, if_pos hsp] at hsw
        have hlen2 : (rem (skip_whitespace (fuel + 1) c)).length ≤ fuel := by
          rw [hsw]
          have := length_dropWhile_le' pyIsSpace t
          omega
        exact ih (skip_whitespace (fuel + 1) c) tbl hlen2
          (by rw [hsw]; exact blank_dropWhile t hrest)
      | lineComment body rest hbody hrest =>
        have hpk : peek c = some '/' := peek_of_rem c '/' '/' _ hrc
        have hrem2 : rem c = ('/' :: '/' :: body) ++ '\n' :: rest := by
          rw [hrc]; simp
        have hlc2 := congrArg List.length hrc
        simp only [List.length_cons, List.length_append] at hlc2
        rw [get_next_token_some fuel c tbl _ hcc,
          if_neg (by decide), if_pos ⟨rfl, Or.inl hpk⟩]
        have hscrem : rem (skip_comment (fuel + 1) c) = '\n' :: rest := by
          unfold skip_comment
          rw [if_pos ⟨hcc, hpk⟩]
          exact line_comment_loop_rem ('/' :: '/' :: body) (fuel + 1) c ('\n' :: rest)
            hrem2
            (by
              intro x hx
              simp only [List.mem_cons] at hx
              rcases hx with rfl | rfl | hx
              · decide
              · decide
              · exact hbody x hx)
            (by intro r t h; exact (List.cons.injEq _ _ _ _ ▸ h).1.symm)
            (by simp; omega)
        exact ih (skip_comment (fuel + 1) c) tbl
          (by rw [hscrem]; simp; omega)
          (by rw [hscrem]; exact Blank.ws '\n' rest (by decide) hrest)
      | lineCommentAtEnd body hbody =>
        have hpk : peek c = some '/' := peek_of_rem c '/' '/' _ hrc
        have hrem2 : rem c = ('/' :: '/' :: body) ++ [] := by
          rw [hrc]; simp
        have hlc2 := congrArg List.length hrc
        simp only [List.length_cons] at hlc2
        rw [get_next_token_some fuel c tbl _ hcc,
          if_neg (by decide), if_pos ⟨rfl, Or.inl hpk⟩]
        have hscrem : rem (skip_comment (fuel + 1) c) = [] := by
          unfold skip_comment
          rw [if_pos ⟨hcc, hpk⟩]
          exact line_comment_loop_rem ('/' :: '/' :: body) (fuel + 1) c []
            hrem2
            (by
              intro x hx
              simp only [List.mem_cons] at hx
              rcases hx with rfl | rfl | hx
              · decide
              · decide
              · exact hbody x hx)
            (by intro r t h; exact absurd h (by simp))
            (by simp; omega)
        exact ih (skip_comment (fuel + 1) c) tbl
          (by rw [hscrem]; simp)
          (by rw [hscrem]; exact Blank.nil)
      | blockComment body rest hbody hrest =>
        have hpk : peek c = some '*' := peek_of_rem c '/' '*' _ hrc
        have hlc2 := congrArg List.length hrc
        simp only [List.length_cons, List.length_append] at hlc2
        rw [get_next_token_some fuel c tbl _ hcc,
          if_neg (by decide), if_pos ⟨rfl, Or.inr hpk⟩]
        obtain ⟨hcc2, hadv2⟩ := rem_cons (advance c) '*' (body ++ '*' :: '/' :: rest) hadv
        have hscrem : rem (skip_comment (fuel + 1) c) = rest := by
          unfold skip_comment
          rw [if_neg (by
            rintro ⟨_, h2⟩
            rw [hpk] at h2
            exact absurd h2 (by simp)), if_pos ⟨hcc, hpk⟩]
          exact block_comment_loop_rem body (fuel + 1) (advance (advance c)) rest
            hbody hadv2 (by omega)
        exact ih (skip_comment (fuel + 1) c) tbl
          (by rw [hscrem]; omega)
          (by rw [hscrem]; exact hrest)

theorem assocLookup_append {α : Type} (l l' : List (String × α)) (w : String) :
    assocLookup (l ++ l') w =
      match assocLookup l w with
      | some v => some v
      | Option.none => assocLookup l' w := by
  induction l with
  | nil => rfl
  | cons p rest ih =>
    obtain ⟨k, v⟩ := p
    by_cases hk : k = w
    · simp [assocLookup, hk]
    · simp [assocLookup, hk, ih]

theorem assocLookup_map_occ (l : List (String × SymEntry)) (name : String)
    (loc : Nat × Nat) (w : String) :
    assocLookup (l.map (fun p => if p.1 = name then
        (p.1, ⟨p.2.first_seen, p.2.occurrences ++ [loc]⟩) else p)) w =
      (if w = name then
        (assocLookup l w).map (fun e => ⟨e.first_seen, e.occurrences ++ [loc]⟩)
      else assocLookup l w) := by
  induction l with
  | nil => by_cases hw : w = name <;> simp [assocLookup, hw]
  | cons p rest ih =>
    obtain ⟨k, v⟩ := p
    have hf : (if (k, v).1 = name then
        ((k, v).1, (⟨(k, v).2.first_seen, (k, v).2.occurrences ++ [loc]⟩ : SymEntry))
        else (k, v))
        = (k, if k = name then (⟨v.first_seen, v.occurrences ++ [loc]⟩ : SymEntry) else v) := by
      by_cases hk : k = name <;> simp [hk]
    rw [List.map_cons, hf]
    simp only [assocLookup]
    by_cases hkw : k = w
    · subst hkw
      rw [if_pos rfl, if_pos rfl]
      by_cases hwn : k = name
      · rw [if_pos hwn, if_pos hwn]
        rfl
      · rw [if_neg hwn, if_neg hwn]
    · rw [if_neg hkw, if_neg hkw, ih]

theorem record_lookup_self (tbl : Table) (name : String) (loc : Nat × Nat) :
    assocLookup (record tbl name loc) name =
      (match assocLookup tbl name with
      | Option.none => some ⟨loc, [loc]⟩
      | some e => some ⟨e.first_seen, e.occurrences ++ [loc]⟩) := by
  unfold record
  by_cases habs : (assocLookup tbl name).isNone
  · rw [if_pos habs, assocLookup_map_occ, if_pos rfl, assocLookup_append]
    cases h : assocLookup tbl name with
    | none => simp [assocLookup]
    | some e => rw [h] at habs; exact absurd habs (by simp)
  · rw [if_neg habs, assocLookup_map_occ, if_pos rfl]
    cases h : assocLookup tbl name with
    | none => rw [h] at habs; exact absurd rfl habs
    | some e => simp

theorem record_lookup_other (tbl : Table) (name : String) (loc : Nat × Nat)
    (w : String) (hw : w ≠ name) :
    assocLookup (record tbl name loc) w = assocLookup tbl w := by
  unfold record
  by_cases habs : (assocLookup tbl name).isNone
  · rw [if_pos habs, assocLookup_map_occ, if_neg hw, assocLookup_append]
    cases h : assocLookup tbl w with
    | none =>
      simp only [assocLookup]
      rw [if_neg (fun hnw => hw hnw.symm)]
    | some v => rfl
  · rw [if_neg habs, assocLookup_map_occ, if_neg hw]

theorem tablePreserves_refl (t : Table) : tablePreserves t t :=
  fun _ e h => ⟨e, h, rfl, [], by simp⟩

theorem tablePreserves_trans {t1 t2 t3 : Table} (h12 : tablePreserves t1 t2)
    (h23 : tablePreserves t2 t3) : tablePreserves t1 t3 := by
  intro w e h
  obtain ⟨e2, h2, hf2, ex2, ho2⟩ := h12 w e h
  obtain ⟨e3, h3, hf3, ex3, ho3⟩ := h23 w e2 h2
  exact ⟨e3, h3, hf3.trans hf2, ex2 ++ ex3, by rw [ho3, ho2, List.append_assoc]⟩

theorem record_preserves (tbl : Table) (name : String) (loc : Nat × Nat) :
    tablePreserves tbl (record tbl name loc) := by
  intro w e h
  by_cases hw : w = name
  · subst hw
    refine ⟨⟨e.first_seen, e.occurrences ++ [loc]⟩, ?_, rfl, [loc], rfl⟩
    rw [record_lookup_self, h]
  · exact ⟨e, by rw [record_lookup_other tbl name loc w hw]; exact h, rfl, [], by simp⟩

theorem tokenize_loop_succ (fuel : Nat) (c : Cursor) (tbl : Table) (acc : List Token) :
    tokenize_loop (fuel + 1) c tbl acc =
      match get_next_token (fuel + 1) c tbl with
      | .error e => .error (e, c, tbl)
      | .ok (t, c', tbl') =>
        if t.type = TokenType.EOF then .ok (acc ++ [t], c', tbl')
        else tokenize_loop fuel c' tbl' (acc ++ [t]) := rfl

theorem read_identifier_tables (fuel : Nat) (c : Cursor) (tbl tbl' : Table) :
    (read_identifier fuel c tbl).1 = (read_identifier fuel c tbl').1 ∧
    (read_identifier fuel c tbl).2.1 = (read_identifier fuel c tbl').2.1 ∧
    ((read_identifier fuel c tbl).2.2 = tbl ∧ (read_identifier fuel c tbl').2.2 = tbl' ∨
      ∃ w loc, (read_identifier fuel c tbl).2.2 = record tbl w loc ∧
        (read_identifier fuel c tbl').2.2 = record tbl' w loc) := by
  unfold read_identifier
  rcases hloop : ident_loop fuel c ("") with ⟨result, c2⟩
  cases hkw : assocLookup keywords result with
  | some kw =>
    simp only [hkw]
    exact ⟨by trivial, by trivial, Or.inl ⟨by trivial, by trivial⟩⟩
  | none =>
    simp only [hkw]
    exact ⟨by trivial, by trivial,
      Or.inr ⟨result, (c2.line, c.column), by trivial, by trivial⟩⟩

/-- The token built by `read_identifier` stores the scanner's column counter
as sampled at the token's first character (`start_column = self.column` on
entry, lab06.py lines 176 and 185). -/
theorem read_identifier_column (fuel : Nat) (c : Cursor) (tbl : Table) :
    ((read_identifier fuel c tbl).1).column = c.column := by
  unfold read_identifier
  rcases hloop : ident_loop fuel c ("") with ⟨result, c2⟩
  cases hkw : assocLookup keywords result with
  | some kw => simp only [hkw]
  | none => simp only [hkw]

/-- The token built by `read_identifier` stores the scanner's line counter as
it stands when the identifier ends (`self.line` at the Token construction,
lab06.py line 185). -/
theorem read_identifier_line (fuel : Nat) (c : Cursor) (tbl : Table) :
    ((read_identifier fuel c tbl).1).line = ((read_identifier fuel c tbl).2.1).line := by
  unfold read_identifier
  rcases hloop : ident_loop fuel c ("") with ⟨result, c2⟩
  cases hkw : assocLookup keywords result with
  | some kw => simp only [hkw]
  | none => simp only [hkw]

theorem get_next_token_tables : ∀ (fuel : Nat) (c : Cursor) (tbl tbl' : Table),
    (∃ e, get_next_token fuel c tbl = .error e ∧ get_next_token fuel c tbl' = .error e) ∨
    (∃ t c2, get_next_token fuel c tbl = .ok (t, c2, tbl) ∧
      get_next_token fuel c tbl' = .ok (t, c2, tbl')) ∨
    (∃ t c2 w loc, get_next_token fuel c tbl = .ok (t, c2, record tbl w loc) ∧
      get_next_token fuel c tbl' = .ok (t, c2, record tbl' w loc)) := by
  intro fuel
  induction fuel with
  | zero =>
    intro c tbl tbl'
    right; left
    exact ⟨⟨.EOF, .none, c.line, c.column⟩, c, rfl, rfl⟩
  | succ fuel ih =>
    intro c tbl tbl'
    cases hcc : c.currentChar with
    | none =>
      right; left
      exact ⟨⟨.EOF, .none, c.line, c.column⟩, c,
        get_next_token_none fuel c tbl hcc, get_next_token_none fuel c tbl' hcc⟩
    | some ch =>
      rw [get_next_token_some fuel c tbl ch hcc, get_next_token_some fuel c tbl' ch hcc]
      by_cases h1 : pyIsSpace ch = true
      · rw [if_pos h1, if_pos h1]; exact ih _ tbl tbl'
      · rw [if_neg h1, if_neg h1]
        by_cases h2 : ch = '/' ∧ (peek c = some '/' ∨ peek c = some '*')
        · rw [if_pos h2, if_pos h2]; exact ih _ tbl tbl'
        · rw [if_neg h2, if_neg h2]
          by_cases h3 : pyIsAlpha ch = true ∨ ch = '_'
          · rw [if_pos h3, if_pos h3]
            obtain ⟨hT, hC, hTab⟩ := read_identifier_tables (fuel + 1) c tbl tbl'
            rcases hp : read_identifier (fuel + 1) c tbl with ⟨t1, c1, u1⟩
            rcases hq : read_identifier (fuel + 1) c tbl' with ⟨t2, cc2, u2⟩
            simp only [hp, hq] at hT hC hTab
            subst hT
            subst hC
            rcases hTab with ⟨hu, hu'⟩ | ⟨w, loc, hu, hu'⟩
            · right; left
              exact ⟨t1, c1, by rw [hu], by rw [hu']⟩
            · right; right
              exact ⟨t1, c1, w, loc, by rw [hu], by rw [hu']⟩
          · rw [if_neg h3, if_neg h3]
            by_cases h4 : pyIsDigit ch = true
            · rw [if_pos h4, if_pos h4]
              cases hnum : read_number (fuel + 1) c with
              | error e => left; exact ⟨e, rfl, rfl⟩
              | ok p =>
                obtain ⟨t, c2⟩ := p
                right; left
                exact ⟨t, c2, rfl, rfl⟩
            · rw [if_neg h4, if_neg h4]
              by_cases h5 : ch = '"'
              · rw [if_pos h5, if_pos h5]
                cases hstr : read_string (fuel + 1) c with
                | error e => left; exact ⟨e, rfl, rfl⟩
                | ok p =>
                  obtain ⟨t, c2⟩ := p
                  right; left
                  exact ⟨t, c2, rfl, rfl⟩
              · rw [if_neg h5, if_neg h5]
                by_cases h6 : ch = '\''
                · rw [if_pos h6, if_pos h6]
                  cases hch : read_char_literal c with
                  | error e => left; exact ⟨e, rfl, rfl⟩
                  | ok p =>
                    obtain ⟨t, c2⟩ := p
                    right; left
                    exact ⟨t, c2, rfl, rfl⟩
                · rw [if_neg h6, if_neg h6]
                  by_cases h7 : ch ∈ ['=', '!', '<', '>'] ∧ peek c = some '='
                  · rw [if_pos h7, if_pos h7]
                    right; left
                    exact ⟨_, _, rfl, rfl⟩
                  · rw [if_neg h7, if_neg h7]
                    cases hop : assocLookup operators (String.mk [ch]) with
                    | some ty =>
                      right; left
                      exact ⟨_, _, rfl, rfl⟩
                    | none =>
                      left
                      exact ⟨_, rfl, rfl⟩

theorem get_next_token_preserves (fuel : Nat) (c : Cursor) (tbl : Table)
    (t : Token) (c2 : Cursor) (tbl2 : Table)
    (h : get_next_token fuel c tbl = .ok (t, c2, tbl2)) : tablePreserves tbl tbl2 := by
  rcases get_next_token_tables fuel c tbl tbl with ⟨e, h1, _⟩ | ⟨t', c', h1, _⟩ |
    ⟨t', c', w, loc, h1, _⟩
  · rw [h] at h1
    exact absurd h1 (by simp)
  · rw [h] at h1
    simp only [Except.ok.injEq, Prod.mk.injEq] at h1
    rw [h1.2.2]
    exact tablePreserves_refl tbl
  · rw [h] at h1
    simp only [Except.ok.injEq, Prod.mk.injEq] at h1
    rw [h1.2.2]
    exact record_preserves tbl w loc

theorem tokenize_loop_tables : ∀ (fuel : Nat) (c : Cursor) (tbl tbl' : Table)
    (acc : List Token),
    (∃ e c2 u u', tokenize_loop fuel c tbl acc = .error (e, c2, u) ∧
      tokenize_loop fuel c tbl' acc = .error (e, c2, u')) ∨
    (∃ ts c2 u u', tokenize_loop fuel c tbl acc = .ok (ts, c2, u) ∧
      tokenize_loop fuel c tbl' acc = .ok (ts, c2, u')) := by
  intro fuel
  induction fuel with
  | zero =>
    intro c tbl tbl' acc
    right
    exact ⟨acc, c, tbl, tbl', rfl, rfl⟩
  | succ fuel ih =>
    intro c tbl tbl' acc
    rw [tokenize_loop_succ, tokenize_loop_succ]
    rcases get_next_token_tables (fuel + 1) c tbl tbl' with ⟨e, h1, h2⟩ |
      ⟨t, c2, h1, h2⟩ | ⟨t, c2, w, loc, h1, h2⟩
    · left
      exact ⟨e, c, tbl, tbl', by rw [h1], by rw [h2]⟩
    · rw [h1, h2]
      by_cases hEof : t.type = TokenType.EOF
      · right
        exact ⟨acc ++ [t], c2, tbl, tbl', by simp [hEof], by simp [hEof]⟩
      · simp only [if_neg hEof]
        exact ih c2 tbl tbl' (acc ++ [t])
    · rw [h1, h2]
      by_cases hEof : t.type = TokenType.EOF
      · right
        exact ⟨acc ++ [t], c2, record tbl w loc, record tbl' w loc,
          by simp [hEof], by simp [hEof]⟩
      · simp only [if_neg hEof]
        exact ih c2 (record tbl w loc) (record tbl' w loc) (acc ++ [t])

theorem tokenize_loop_preserves : ∀ (fuel : Nat) (c : Cursor) (tbl : Table)
    (acc : List Token), tablePreserves tbl (outTable (tokenize_loop fuel c tbl acc)) := by
  intro fuel
  induction fuel with
  | zero =>
    intro c tbl acc
    exact tablePreserves_refl tbl
  | succ fuel ih =>
    intro c tbl acc
    rw [tokenize_loop_succ]
    cases hg : get_next_token (fuel + 1) c tbl with
    | error e => exact tablePreserves_refl tbl
    | ok p =>
      obtain ⟨t, c2, tbl2⟩ := p
      have hp := get_next_token_preserves (fuel + 1) c tbl t c2 tbl2 hg
      by_cases hEof : t.type = TokenType.EOF
      · simp only [hEof, if_pos]
        exact hp
      · simp only [if_neg hEof]
        exact tablePreserves_trans hp (ih c2 tbl2 (acc ++ [t]))

theorem tokenize_fst (a : LexicalAnalyzer) (src : String) :
    (tokenize a src).1 =
      (match tokenize_loop (lexFuel src) (init_scanner a src).cur
          (init_scanner a src).symbolTable [] with
      | .ok (ts, _, _) => (ts, Option.none)
      | .error (e, _, _) => ([], some e)) := by
  simp only [tokenize]
  cases h : tokenize_loop (lexFuel src) (init_scanner a src).cur
      (init_scanner a src).symbolTable [] with
  | ok p => obtain ⟨ts, c, tbl⟩ := p; rfl
  | error p => obtain ⟨e, c, tbl⟩ := p; rfl

theorem tokenize_symbolTable (a : LexicalAnalyzer) (src : String) :
    (tokenize a src).2.symbolTable =
      outTable (tokenize_loop (lexFuel src) (init_scanner a src).cur
        (init_scanner a src).symbolTable []) := by
  simp only [tokenize]
  cases h : tokenize_loop (lexFuel src) (init_scanner a src).cur
      (init_scanner a src).symbolTable [] with
  | ok p => obtain ⟨ts, c, tbl⟩ := p; rfl
  | error p => obtain ⟨e, c, tbl⟩ := p; rfl

/-- Claim C1 (amended): `tokenize` re-initializes the Cursor, so re-tokenizing
the same source with the same analyzer yields an identical token sequence and
error outcome; the Occurrence Table, however, is NOT reset by `init_scanner`:
entries from earlier sessions are carried over, every existing entry keeps its
`first_seen` value, and its occurrence list only grows. -/
theorem claim_C1_amended (a : LexicalAnalyzer) (src : String) :
    (tokenize ((tokenize a src).2) src).1 = (tokenize a src).1 ∧
    tablePreserves ((tokenize a src).2).symbolTable
      ((tokenize ((tokenize a src).2) src).2).symbolTable := by
  constructor
  · rw [tokenize_fst ((tokenize a src).2) src, tokenize_fst a src]
    have hcur : (init_scanner ((tokenize a src).2) src).cur =
        (init_scanner a src).cur := rfl
    rw [hcur]
    rcases tokenize_loop_tables (lexFuel src) (init_scanner a src).cur
      ((init_scanner ((tokenize a src).2) src).symbolTable)
      ((init_scanner a src).symbolTable) []
      with ⟨e, c2, u, u', h1, h2⟩ | ⟨ts, c2, u, u', h1, h2⟩
    · rw [h1, h2]
    · rw [h1, h2]
  · rw [tokenize_symbolTable ((tokenize a src).2) src]
    exact tokenize_loop_preserves (lexFuel src)
      (init_scanner ((tokenize a src).2) src).cur ((tokenize a src).2).symbolTable []

/-- Claim C1 counterexample: the claim as frozen says a fresh (empty)
Occurrence Table is used per session, so re-tokenizing `"x"` would give the
same single occurrence; the code carries the table over, so the second run
ends with two recorded occurrences of `x`. -/
theorem claim_C1_counterexample :
    (assocLookup ((tokenize newAnalyzer ("x")).2).symbolTable ("x")).map
      (fun e => e.occurrences.length) = some 1 ∧
    (assocLookup ((tokenize ((tokenize newAnalyzer ("x")).2) ("x")).2).symbolTable
      ("x")).map (fun e => e.occurrences.length) = some 2 := by
  decide

theorem keywords_lookup_ne_identifier (s : String) (kw : TokenType)
    (h : assocLookup keywords s = some kw) : kw ≠ TokenType.IDENTIFIER := by
  simp only [keywords, assocLookup] at h
  split_ifs at h <;> simp only [Option.some.injEq] at h <;> (subst h; decide)

/-- Claim C6: for every identifier lexeme not in the keyword set, the first
scan at location L creates an Occurrence Table entry with `first_seen = L` and
occurrence list `[L]`; every later scan of the same lexeme appends its
location and never overwrites `first_seen`; within a whole driver session the
table only evolves by such appends. -/
theorem claim_C6 :
    (∀ tbl w loc, assocLookup tbl w = Option.none →
      assocLookup (record tbl w loc) w = some ⟨loc, [loc]⟩) ∧
    (∀ tbl w loc e, assocLookup tbl w = some e →
      assocLookup (record tbl w loc) w = some ⟨e.first_seen, e.occurrences ++ [loc]⟩) ∧
    (∀ fuel c tbl t c2 tbl2, read_identifier fuel c tbl = (t, c2, tbl2) →
      t.type = .IDENTIFIER →
      ∃ w, t.value = .str w ∧ tbl2 = record tbl w (t.line, t.column)) ∧
    (∀ fuel c tbl acc, tablePreserves tbl (outTable (tokenize_loop fuel c tbl acc))) := by
  refine ⟨?_, ?_, ?_, tokenize_loop_preserves⟩
  · intro tbl w loc h
    rw [record_lookup_self, h]
  · intro tbl w loc e h
    rw [record_lookup_self, h]
  · intro fuel c tbl t c2 tbl2 hrid hty
    unfold read_identifier at hrid
    rcases hloop : ident_loop fuel c ("") with ⟨result, cr⟩
    rw [hloop] at hrid
    cases hkw : assocLookup keywords result with
    | some kw =>
      simp only [hkw] at hrid
      obtain ⟨h1, h2⟩ := Prod.mk.injEq _ _ _ _ ▸ hrid
      rw [← h1] at hty
      exact absurd hty (keywords_lookup_ne_identifier result kw hkw)
    | none =>
      simp only [hkw] at hrid
      obtain ⟨h1, h2⟩ := Prod.mk.injEq _ _ _ _ ▸ hrid
      obtain ⟨h3, h4⟩ := Prod.mk.injEq _ _ _ _ ▸ h2
      subst h1
      subst h4
      exact ⟨result, rfl, rfl⟩

theorem claim_C6_witness :
    assocLookup (record [] ("x") (1, 2)) ("x") = some ⟨(1, 2), [(1, 2)]⟩ ∧
    assocLookup (record [(("x" : String), (⟨(1, 2), [(1, 2)]⟩ : SymEntry))]
      ("x") (3, 4)) ("x") = some ⟨(1, 2), [(1, 2), (3, 4)]⟩ := by
  constructor
  · exact claim_C6.1 [] ("x") (1, 2) rfl
  · exact claim_C6.2.1 [(("x" : String), (⟨(1, 2), [(1, 2)]⟩ : SymEntry))]
      ("x") (3, 4) ⟨(1, 2), [(1, 2)]⟩ rfl

/-- Claim C2: whenever the scanner raises a lexical error while tokenizing,
the driver stops immediately and returns no partial token sequence, and the
surfaced diagnostic is exactly the raised error, carrying its kind (message)
and its (line, column) location.  The Python `tokenize` prints the error and
returns `[]`; the printed diagnostic is the `Option LexicalError` component of
the embedded `tokenize`. -/
theorem claim_C2 (a : LexicalAnalyzer) (src : String) (e : LexicalError)
    (cE : Cursor) (tE : Table)
    (h : tokenize_loop (lexFuel src) (init_scanner a src).cur
      (init_scanner a src).symbolTable [] = .error (e, cE, tE)) :
    (tokenize a src).1 = ([], some e) := by
  rw [tokenize_fst, h]

theorem claim_C2_witness :
    (tokenize newAnalyzer ("1.2.3")).1 =
      ([], some ⟨("Invalid float literal"), 1, 5⟩) :=
  claim_C2 newAnalyzer ("1.2.3") ⟨("Invalid float literal"), 1, 5⟩
    ⟨("1.2.3").toList, 1, 1, 2, some '1'⟩ [] (by rfl)

/-- Claim C4 counterexample: the claim says every token's `column` is the
1-based position of its first character.  On the source `"x"` the single
identifier token starts at 1-based column 1 but is reported with column 2
(the scanner pre-increments `column` when it loads a character). -/
theorem claim_C4_counterexample :
    (tokenize newAnalyzer ("x")).1 =
      ([⟨.IDENTIFIER, .str ("x"), 1, 2⟩, ⟨.EOF, .none, 1, 2⟩], Option.none) ∧
    ((tokenize newAnalyzer ("x")).1.1.map Token.column = [2, 2] ∧ (2 : Nat) ≠ 1) := by
  decide

/-- Claim C4 (amended): token positions are the scanner's internal counters,
not recomputed 1-based source positions: an identifier token's `column` field
is the column counter sampled at its first character and its `line` field is
the line counter when the identifier ends; because `advance` pre-increments
the column counter, the stored column can differ from the 1-based column of
the first character.  The frozen scenario holds with the actual counters:
tokenizing `"// comment\nint y;"` yields INT, IDENTIFIER y, SEMICOLON, EOF,
with `y` reported on line 2 as the claim says, at column 6 while its first
character sits at 1-based column 5. -/
theorem claim_C4_amended :
    ((tokenize newAnalyzer ("// comment\nint y;")).1 =
      ([⟨.INT, .str ("int"), 2, 2⟩, ⟨.IDENTIFIER, .str ("y"), 2, 6⟩,
        ⟨.SEMICOLON, .str (";"), 2, 6⟩, ⟨.EOF, .none, 2, 7⟩], Option.none)) ∧
    (∀ fuel c tbl, ((read_identifier fuel c tbl).1).column = c.column) ∧
    (∀ fuel c tbl,
      ((read_identifier fuel c tbl).1).line = ((read_identifier fuel c tbl).2.1).line) :=
  ⟨by decide, read_identifier_column, read_identifier_line⟩

/-- Claim C5 counterexample: the claim says `advance` over a newline
increments `line` and resets `column` to 1.  On the source `"\na"`, with the
newline current, `advance` leaves `line` at 1 and moves `column` to 3. -/
theorem claim_C5_counterexample :
    ((init_scanner newAnalyzer ("\na")).cur.currentChar = some '\n') ∧
    (advance (init_scanner newAnalyzer ("\na")).cur).line = 1 ∧
    (advance (init_scanner newAnalyzer ("\na")).cur).column = 3 ∧
    ¬((advance (init_scanner newAnalyzer ("\na")).cur).line = 2 ∧
      (advance (init_scanner newAnalyzer ("\na")).cur).column = 1) := by
  decide

/-- Claim C5 (amended): `advance` loads the next character and increments
`pos` and `column` unconditionally (or sets the end sentinel, leaving `pos`
and `column` untouched); it never changes `line` and never resets `column`.
The newline bookkeeping the claim describes is performed by `skip_whitespace`
(and `skip_comment`) before the newline is consumed, so after `advance` the
`column` field is one more than the 1-based column of the new current
character. -/
theorem claim_C5_amended :
    (∀ c : Cursor, (advance c).line = c.line ∧
      (c.pos < c.source.length →
        (advance c).pos = c.pos + 1 ∧ (advance c).column = c.column + 1 ∧
        (advance c).currentChar = c.source.get? c.pos) ∧
      (c.source.length ≤ c.pos → advance c = { c with currentChar := Option.none })) ∧
    (∀ (fuel : Nat) (c : Cursor), c.currentChar = some '\n' →
      skip_whitespace (fuel + 1) c =
        skip_whitespace fuel (advance { c with line := c.line + 1, column := 1 })) := by
  constructor
  · intro c
    refine ⟨advance_line c, ?_, ?_⟩
    · intro h
      unfold advance
      rw [if_neg (by omega)]
      exact ⟨rfl, rfl, rfl⟩
    · intro h
      unfold advance
      rw [if_pos h]
  · intro fuel c hcc
    simp [skip_whitespace, hcc, pyIsSpace]

theorem claim_C5_witness :
    (advance (init_scanner newAnalyzer ("ab")).cur).pos = 2 ∧
    (advance (init_scanner newAnalyzer ("ab")).cur).column = 3 ∧
    (advance (init_scanner newAnalyzer ("ab")).cur).line = 1 := by
  obtain ⟨hl, hlt, _⟩ := claim_C5_amended.1 (init_scanner newAnalyzer ("ab")).cur
  obtain ⟨hp, hc, _⟩ := hlt (by decide)
  refine ⟨?_, ?_, ?_⟩
  · rw [hp]; rfl
  · rw [hc]; rfl
  · rw [hl]; rfl

theorem mk_toList (s : String) : String.mk s.toList = s := by
  cases s
  rfl

theorem toList_push (s : String) (ch : Char) : (s.push ch).toList = s.toList ++ [ch] := by
  cases s
  rfl

theorem string_loop_some (fuel : Nat) (c : Cursor) (acc : String) (ch : Char)
    (hcc : c.currentChar = some ch) :
    string_loop (fuel + 1) c acc =
      (if ch = '"' then .ok (acc, c)
      else if ch = '\\' then
        match (advance c).currentChar with
        | some esc =>
          if esc ∈ stringEscapes then
            string_loop fuel (advance (advance c)) ((acc.push '\\').push esc)
          else .error ⟨("Invalid escape sequence"), (advance c).line, (advance c).column⟩
        | Option.none =>
          .error ⟨("Invalid escape sequence"), (advance c).line, (advance c).column⟩
      else string_loop fuel (advance c) (acc.push ch)) := by
  conv_lhs => rw [string_loop]
  rw [hcc]

theorem string_loop_none (fuel : Nat) (c : Cursor) (acc : String)
    (hcc : c.currentChar = Option.none) :
    string_loop (fuel + 1) c acc = .ok (acc, c) := by
  conv_lhs => rw [string_loop]
  rw [hcc]

theorem string_loop_ok : ∀ (fuel : Nat) (c : Cursor) (acc res : String) (c' : Cursor),
    (rem c).length ≤ fuel → string_loop fuel c acc = .ok (res, c') →
    res.toList = acc.toList ++ (rem c).take ((rem c).length - (rem c').length) ∧
    rem c = (rem c).take ((rem c).length - (rem c').length) ++ rem c' ∧
    c'.line = c.line ∧
    (c'.currentChar = some '"' ∨ c'.currentChar = Option.none) := by
  intro fuel
  induction fuel with
  | zero =>
    intro c acc res c' hlen hloop
    have hnil : rem c = [] := List.eq_nil_of_length_eq_zero (Nat.le_zero.mp hlen)
    rw [string_loop] at hloop
    have hacc : acc = res := (Prod.mk.injEq _ _ _ _ ▸ (Except.ok.injEq _ _ ▸ hloop)).1
    have hc : c = c' := (Prod.mk.injEq _ _ _ _ ▸ (Except.ok.injEq _ _ ▸ hloop)).2
    subst hacc
    subst hc
    rw [hnil]
    exact ⟨by simp, by simp, rfl, Or.inr ((rem_nil_iff _).mp hnil)⟩
  | succ fuel ih =>
    intro c acc res c' hlen hloop
    cases hcc : c.currentChar with
    | none =>
      rw [string_loop_none fuel c acc hcc] at hloop
      obtain ⟨h1, h2⟩ := Prod.mk.injEq _ _ _ _ ▸ (Except.ok.injEq _ _ ▸ hloop)
      subst h1
      subst h2
      rw [(rem_nil_iff c).mpr hcc]
      simp [hcc]
    | some ch =>
      have hrc : rem c = ch :: c.source.drop c.pos := rem_of_some c ch hcc
      obtain ⟨_, hadv⟩ := rem_cons c ch (c.source.drop c.pos) hrc
      rw [string_loop_some fuel c acc ch hcc] at hloop
      by_cases hq : ch = '"'
      · rw [if_pos hq] at hloop
        obtain ⟨h1, h2⟩ := Prod.mk.injEq _ _ _ _ ▸ (Except.ok.injEq _ _ ▸ hloop)
        subst h1
        subst h2
        refine ⟨by simp, by simp, rfl, Or.inl (hq ▸ hcc)⟩
      · rw [if_neg hq] at hloop
        by_cases hbs : ch = '\\'
        · rw [if_pos hbs] at hloop
          cases hesc : (advance c).currentChar with
          | none =>
            simp only [hesc] at hloop
            exact absurd hloop (by simp)
          | some esc =>
            simp only [hesc] at hloop
            by_cases hmem : esc ∈ stringEscapes
            · rw [if_pos hmem] at hloop
              have hradv : rem (advance c) = esc :: (advance c).source.drop (advance c).pos :=
                rem_of_some (advance c) esc hesc
              obtain ⟨_, hadv2⟩ := rem_cons (advance c) esc _ hradv
              have hlen2 : (rem (advance (advance c))).length ≤ fuel := by
                have e1 := congrArg List.length hrc
                have e2 := congrArg List.length hradv
                have e3 := congrArg List.length hadv2
                have e4 := congrArg List.length hadv
                simp only [List.length_cons] at e1 e2
                omega
              obtain ⟨hres, hdecomp, hline, hend⟩ := ih (advance (advance c))
                ((acc.push '\\').push esc) res c' hlen2 hloop
              have hlenc' : (rem c').length ≤ (rem (advance (advance c))).length := by
                have := congrArg List.length hdecomp
                simp only [List.length_append] at this
                omega
              have hchain : rem c = '\\' :: esc :: rem (advance (advance c)) := by
                rw [hrc, ← hadv, hradv, ← hadv2, hbs]
              constructor
              · rw [hres, toList_push, toList_push, hchain]
                rw [show ('\\' :: esc :: rem (advance (advance c))).length -
                    (rem c').length =
                  ((rem (advance (advance c))).length - (rem c').length) + 2 from by
                    simp only [List.length_cons]
                    omega]
                simp [List.take_succ_cons]
              · refine ⟨?_, hline.trans (by rw [advance_line, advance_line]),
                  hend⟩
                conv_lhs => rw [hchain]
                rw [hchain]
                rw [show ('\\' :: esc :: rem (advance (advance c))).length -
                    (rem c').length =
                  ((rem (advance (advance c))).length - (rem c').length) + 2 from by
                    simp only [List.length_cons]
                    omega]
                simp only [List.take_succ_cons, List.cons_append, List.cons.injEq,
                  true_and]
                exact hdecomp
            · rw [if_neg hmem] at hloop
              exact absurd hloop (by simp)
        · rw [if_neg hbs] at hloop
          have hlen2 : (rem (advance c)).length ≤ fuel := by
            have e1 := congrArg List.length hrc
            have e4 := congrArg List.length hadv
            simp only [List.length_cons] at e1
            omega
          obtain ⟨hres, hdecomp, hline, hend⟩ := ih (advance c) (acc.push ch) res c'
            hlen2 hloop
          have hchain : rem c = ch :: rem (advance c) := by rw [hrc, ← hadv]
          have hlenc' : (rem c').length ≤ (rem (advance c)).length := by
            have := congrArg List.length hdecomp
            simp only [List.length_append] at this
            omega
          constructor
          · rw [hres, toList_push, hchain]
            rw [show (ch :: rem (advance c)).length - (rem c').length =
              ((rem (advance c)).length - (rem c').length) + 1 from by
                simp only [List.length_cons]
                omega]
            simp [List.take_succ_cons]
          · refine ⟨?_, hline.trans (advance_line c), hend⟩
            conv_lhs => rw [hchain]
            rw [hchain]
            rw [show (ch :: rem (advance c)).length - (rem c').length =
              ((rem (advance c)).length - (rem c').length) + 1 from by
                simp only [List.length_cons]
                omega]
            simp only [List.take_succ_cons, List.cons_append, List.cons.injEq, true_and]
            exact hdecomp

theorem rem_succ (c : Cursor) (ch : Char) (hcc : c.currentChar = some ch) :
    rem c = ch :: rem (advance c) := by
  have h := rem_of_some c ch hcc
  obtain ⟨_, hadv⟩ := rem_cons c ch _ h
  rw [h, hadv]

theorem string_loop_line : ∀ (fuel : Nat) (c : Cursor) (acc res : String) (c' : Cursor),
    string_loop fuel c acc = .ok (res, c') → c'.line = c.line := by
  intro fuel
  induction fuel with
  | zero =>
    intro c acc res c' h
    rw [string_loop] at h
    have hc : c = c' := (Prod.mk.injEq _ _ _ _ ▸ (Except.ok.injEq _ _ ▸ h)).2
    rw [← hc]
  | succ fuel ih =>
    intro c acc res c' h
    cases hcc : c.currentChar with
    | none =>
      rw [string_loop_none fuel c acc hcc] at h
      have hc : c = c' := (Prod.mk.injEq _ _ _ _ ▸ (Except.ok.injEq _ _ ▸ h)).2
      rw [← hc]
    | some ch =>
      rw [string_loop_some fuel c acc ch hcc] at h
      by_cases hq : ch = '"'
      · rw [if_pos hq] at h
        have hc : c = c' := (Prod.mk.injEq _ _ _ _ ▸ (Except.ok.injEq _ _ ▸ h)).2
        rw [← hc]
      · rw [if_neg hq] at h
        by_cases hbs : ch = '\\'
        · rw [if_pos hbs] at h
          cases hesc : (advance c).currentChar with
          | none =>
            simp only [hesc] at h
            exact absurd h (by simp)
          | some esc =>
            simp only [hesc] at h
            by_cases hmem : esc ∈ stringEscapes
            · rw [if_pos hmem] at h
              rw [ih _ _ _ _ h, advance_line, advance_line]
            · rw [if_neg hmem] at h
              exact absurd h (by simp)
        · rw [if_neg hbs] at h
          rw [ih _ _ _ _ h, advance_line]

theorem read_string_line (fuel : Nat) (c : Cursor) (t : Token) (c2 : Cursor)
    (h : read_string fuel c = .ok (t, c2)) : c2.line = c.line ∧ t.line = c.line := by
  unfold read_string at h
  cases hloop : string_loop fuel (advance c) ("") with
  | error e =>
    rw [hloop] at h
    exact absurd h (by simp)
  | ok p =>
    obtain ⟨res, c'⟩ := p
    rw [hloop] at h
    cases hcc' : c'.currentChar with
    | none =>
      simp only [hcc'] at h
      exact absurd h (by simp)
    | some ch' =>
      simp only [hcc'] at h
      obtain ⟨h1, h2⟩ := Prod.mk.injEq _ _ _ _ ▸ (Except.ok.injEq _ _ ▸ h)
      have hl := string_loop_line fuel (advance c) ("") res c' hloop
      subst h1
      subst h2
      constructor
      · rw [advance_line, hl, advance_line]
      · show (advance c').line = c.line
        rw [advance_line, hl, advance_line]

theorem read_string_ok (fuel : Nat) (c : Cursor) (t : Token) (c2 : Cursor)
    (hlen : (rem c).length ≤ fuel) (hq : c.currentChar = some '"')
    (h : read_string fuel c = .ok (t, c2)) :
    ∃ content : List Char,
      t = ⟨.STRING, .str (String.mk content), c.line, c.column⟩ ∧
      rem c = '"' :: (content ++ '"' :: rem c2) := by
  unfold read_string at h
  cases hloop : string_loop fuel (advance c) ("") with
  | error e =>
    rw [hloop] at h
    exact absurd h (by simp)
  | ok p =>
    obtain ⟨res, c'⟩ := p
    rw [hloop] at h
    cases hcc' : c'.currentChar with
    | none =>
      simp only [hcc'] at h
      exact absurd h (by simp)
    | some ch' =>
      simp only [hcc'] at h
      obtain ⟨h1, h2⟩ := Prod.mk.injEq _ _ _ _ ▸ (Except.ok.injEq _ _ ▸ h)
      have hr1 : rem c = '"' :: rem (advance c) := rem_succ c '"' hq
      have hlen1 : (rem (advance c)).length ≤ fuel := by
        have := congrArg List.length hr1
        simp only [List.length_cons] at this
        omega
      obtain ⟨hres, hdecomp, hline, hend⟩ :=
        string_loop_ok fuel (advance c) ("") res c' hlen1 hloop
      have hquote : ch' = '"' := by
        rcases hend with he | he
        · rw [hcc'] at he
          exact Option.some.injEq _ _ ▸ he
        · rw [hcc'] at he
          exact absurd he (by simp)
      have hr2 : rem c' = '"' :: rem (advance c') := rem_succ c' '"' (hquote ▸ hcc')
      refine ⟨res.toList, ?_, ?_⟩
      · rw [← h1]
        have : (advance c').line = c.line := by
          rw [advance_line, hline, advance_line]
        rw [this, mk_toList]
      · rw [hr1]
        conv_lhs => rw [hdecomp]
        rw [hres, hr2, ← h2]
        simp

theorem read_char_literal_ok (c : Cursor) (t : Token) (c2 : Cursor)
    (hq : c.currentChar = some '\'')
    (h : read_char_literal c = .ok (t, c2)) :
    ∃ content : List Char,
      t = ⟨.CHAR_LITERAL, .str (String.mk content), c.line, c.column⟩ ∧
      rem c = '\'' :: (content ++ '\'' :: rem c2) := by
  unfold read_char_literal at h
  cases hcc1 : (advance c).currentChar with
  | none =>
    simp only [hcc1] at h
    exact absurd h (by simp)
  | some ch =>
    simp only [hcc1] at h
    by_cases hbs : ch = '\\'
    · rw [if_pos hbs] at h
      cases hcc2 : (advance (advance c)).currentChar with
      | none =>
        simp only [hcc2] at h
        exact absurd h (by simp)
      | some esc =>
        simp only [hcc2] at h
        by_cases hmem : esc ∈ charEscapes
        · rw [if_pos hmem] at h
          unfold char_tail at h
          by_cases hcl : (advance (advance (advance c))).currentChar = some '\''
          · rw [if_pos hcl] at h
            obtain ⟨h1, h2⟩ := Prod.mk.injEq _ _ _ _ ▸ (Except.ok.injEq _ _ ▸ h)
            refine ⟨['\\', esc], ?_, ?_⟩
            · rw [← h1]
              simp [advance_line]
            · rw [rem_succ c '\'' hq, rem_succ (advance c) ch hcc1,
                rem_succ (advance (advance c)) esc hcc2,
                rem_succ (advance (advance (advance c))) '\'' hcl, ← h2, hbs]
              rfl
          · rw [if_neg hcl] at h
            exact absurd h (by simp)
        · rw [if_neg hmem] at h
          exact absurd h (by simp)
    · rw [if_neg hbs] at h
      unfold char_tail at h
      by_cases hcl : (advance (advance c)).currentChar = some '\''
      · rw [if_pos hcl] at h
        obtain ⟨h1, h2⟩ := Prod.mk.injEq _ _ _ _ ▸ (Except.ok.injEq _ _ ▸ h)
        refine ⟨[ch], ?_, ?_⟩
        · rw [← h1]
          simp [advance_line]
        · rw [rem_succ c '\'' hq, rem_succ (advance c) ch hcc1,
            rem_succ (advance (advance c)) '\'' hcl, ← h2]
          rfl
      · rw [if_neg hcl] at h
        exact absurd h (by simp)

/-- Claim C3 (amended): tokens do not retain the original lexeme of literals.
A successfully scanned string or character literal consumes exactly an opening
quote, its content and a closing quote from the input, with escapes kept
verbatim in the content, but the stored token value excludes the surrounding
quotes, so concatenating stored values cannot reproduce the quoting. -/
theorem claim_C3_amended :
    (∀ (fuel : Nat) (c : Cursor) (t : Token) (c2 : Cursor),
      (rem c).length ≤ fuel → c.currentChar = some '"' →
      read_string fuel c = .ok (t, c2) →
      ∃ content : List Char,
        t = ⟨.STRING, .str (String.mk content), c.line, c.column⟩ ∧
        rem c = '"' :: (content ++ '"' :: rem c2)) ∧
    (∀ (c : Cursor) (t : Token) (c2 : Cursor), c.currentChar = some '\'' →
      read_char_literal c = .ok (t, c2) →
      ∃ content : List Char,
        t = ⟨.CHAR_LITERAL, .str (String.mk content), c.line, c.column⟩ ∧
        rem c = '\'' :: (content ++ '\'' :: rem c2)) :=
  ⟨read_string_ok, read_char_literal_ok⟩

theorem claim_C3_witness :
    ∃ content : List Char,
      (⟨.STRING, .str ("ab"), 1, 2⟩ : Token) =
        ⟨.STRING, .str (String.mk content),
          (init_scanner newAnalyzer ("\"ab\"")).cur.line,
          (init_scanner newAnalyzer ("\"ab\"")).cur.column⟩ ∧
      rem (init_scanner newAnalyzer ("\"ab\"")).cur =
        '"' :: (content ++ '"' ::
          rem ⟨("\"ab\"").toList, 4, 1, 5, Option.none⟩) :=
  claim_C3_amended.1 4 (init_scanner newAnalyzer ("\"ab\"")).cur
    ⟨.STRING, .str ("ab"), 1, 2⟩ ⟨("\"ab\"").toList, 4, 1, 5, Option.none⟩
    (by decide) (by rfl) (by rfl)

/-- Claim C3 counterexample: the source `"a"` (a quoted string literal, with
no whitespace and no comments) tokenizes successfully, yet concatenating the
stored token values of the non-EOF tokens yields `a`, not the source: the
quotes of the literal are not preserved. -/
theorem claim_C3_counterexample :
    (tokenize newAnalyzer ("\"a\"")).1.2 = Option.none ∧
    concatValues ((tokenize newAnalyzer ("\"a\"")).1.1.filter
      (fun t => !(t.type == TokenType.EOF))) = ("a") ∧
    ("a" : String) ≠ ("\"a\"") ∧
    (("\"a\"").toList.all (fun ch => !(pyIsSpace ch) && !(ch == '/'))) = true := by
  decide

/-- Claim C10 (amended): a string literal may contain raw newline characters —
the newline is stored in the token value and scanning reaches the closing
quote without error — and `read_string` never changes the `line` counter, so
the tokens following such a literal undercount lines by the newlines inside
it: with no further newline outside, the next token reports the opening
line (in `"a\nb" x` below, `x` reports line 1 though it lies on physical
line 2), while a newline outside a literal still advances the counter. -/
theorem claim_C10_amended :
    (∀ (fuel : Nat) (c : Cursor) (t : Token) (c2 : Cursor),
      read_string fuel c = .ok (t, c2) → c2.line = c.line ∧ t.line = c.line) ∧
    (tokenize newAnalyzer ("\"a\nb\" x")).1 =
      ([⟨.STRING, .str ("a\nb"), 1, 2⟩, ⟨.IDENTIFIER, .str ("x"), 1, 8⟩,
        ⟨.EOF, .none, 1, 8⟩], Option.none) :=
  ⟨read_string_line, by decide⟩

theorem claim_C10_witness :
    (⟨("\"a\nb\"").toList, 5, 1, 6, Option.none⟩ : Cursor).line =
      (init_scanner newAnalyzer ("\"a\nb\"")).cur.line ∧
    (⟨.STRING, .str ("a\nb"), 1, 2⟩ : Token).line =
      (init_scanner newAnalyzer ("\"a\nb\"")).cur.line :=
  claim_C10_amended.1 7 (init_scanner newAnalyzer ("\"a\nb\"")).cur
    ⟨.STRING, .str ("a\nb"), 1, 2⟩ ⟨("\"a\nb\"").toList, 5, 1, 6, Option.none⟩ (by rfl)

/-- Claim C10 counterexample: the claim says every token after a literal with
a raw newline reports the line of the literal's opening quote (line 1 here);
but a newline outside the literal still increments the counter, so in
`"a\nb"` followed by a newline and `x`, the identifier `x` reports line 2. -/
theorem claim_C10_counterexample :
    (tokenize newAnalyzer ("\"a\nb\"\nx")).1.1.map (fun t => (t.type, t.line)) =
      [(.STRING, 1), (.IDENTIFIER, 2), (.EOF, 2)] ∧ (2 : Nat) ≠ 1 := by
  decide

/-- Claim C7 (amended): string literals and character literals use DIFFERENT
escape sets: strings accept a backslash followed by one of `n`, `t`, `"`,
`\`, while character literals accept `n`, `t`, `'`, `\` — the apostrophe in
place of the double quote.  Within each kind, any other character after the
backslash raises `Invalid escape sequence`, and a character literal still
admits exactly one escape before its mandatory closing quote. -/
theorem claim_C7_amended :
    ('"' ∈ stringEscapes ∧ '"' ∉ charEscapes ∧
      '\'' ∈ charEscapes ∧ '\'' ∉ stringEscapes) ∧
    (∀ (c : Cursor) (esc : Char) (rest : List Char),
      rem c = '\'' :: '\\' :: esc :: '\'' :: rest →
      ((esc ∈ charEscapes →
        read_char_literal c = .ok (⟨.CHAR_LITERAL, .str (String.mk ['\\', esc]),
          c.line, c.column⟩, advance (advance (advance (advance c))))) ∧
      (esc ∉ charEscapes →
        read_char_literal c =
          .error ⟨("Invalid escape sequence"), c.line, c.column + 2⟩))) ∧
    (∀ (fuel : Nat) (c : Cursor) (esc : Char) (rest : List Char),
      rem c = '"' :: '\\' :: esc :: '"' :: rest →
      ((esc ∈ stringEscapes →
        read_string (fuel + 2) c = .ok (⟨.STRING, .str (String.mk ['\\', esc]),
          c.line, c.column⟩, advance (advance (advance (advance c))))) ∧
      (esc ∉ stringEscapes →
        read_string (fuel + 2) c =
          .error ⟨("Invalid escape sequence"), c.line, c.column + 2⟩))) := by
  refine ⟨by decide, ?_, ?_⟩
  · intro c esc rest h0
    obtain ⟨hcc0, h1⟩ := rem_cons c '\'' _ h0
    obtain ⟨hcc1, h2⟩ := rem_cons (advance c) '\\' _ h1
    obtain ⟨hcc2, h3⟩ := rem_cons (advance (advance c)) esc _ h2
    obtain ⟨hcc3, h4⟩ := rem_cons (advance (advance (advance c))) '\'' _ h3
    have hc1 := (advance_fields_of_rem c _ _ _ h0).2
    have hc2 := (advance_fields_of_rem (advance c) _ _ _ h1).2
    constructor
    · intro hmem
      unfold read_char_literal
      simp only [hcc1]
      rw [if_pos trivial]
      simp only [hcc2]
      rw [if_pos hmem]
      unfold char_tail
      rw [if_pos hcc3]
      simp [advance_line]
    · intro hmem
      unfold read_char_literal
      simp only [hcc1]
      rw [if_pos trivial]
      simp only [hcc2]
      rw [if_neg hmem, advance_line, advance_line, hc2, hc1]
  · intro fuel c esc rest h0
    obtain ⟨hcc0, h1⟩ := rem_cons c '"' _ h0
    obtain ⟨hcc1, h2⟩ := rem_cons (advance c) '\\' _ h1
    obtain ⟨hcc2, h3⟩ := rem_cons (advance (advance c)) esc _ h2
    obtain ⟨hcc3, h4⟩ := rem_cons (advance (advance (advance c))) '"' _ h3
    have hc1 := (advance_fields_of_rem c _ _ _ h0).2
    have hc2 := (advance_fields_of_rem (advance c) _ _ _ h1).2
    constructor
    · intro hmem
      have hloop : string_loop (fuel + 2) (advance c) ("") =
          .ok (String.mk ['\\', esc], advance (advance (advance c))) := by
        rw [show fuel + 2 = (fuel + 1) + 1 from rfl,
          string_loop_some (fuel + 1) (advance c) ("") '\\' hcc1]
        rw [if_neg (by decide), if_pos rfl]
        simp only [hcc2]
        rw [if_pos hmem,
          string_loop_some fuel (advance (advance (advance c))) _ '"' hcc3]
        rw [if_pos rfl]
        rfl
      unfold read_string
      simp only [hloop, hcc3]
      simp [advance_line]
    · intro hmem
      have hloop : string_loop (fuel + 2) (advance c) ("") =
          .error ⟨("Invalid escape sequence"), (advance (advance c)).line,
            (advance (advance c)).column⟩ := by
        rw [show fuel + 2 = (fuel + 1) + 1 from rfl,
          string_loop_some (fuel + 1) (advance c) ("") '\\' hcc1]
        rw [if_neg (by decide), if_pos rfl]
        simp only [hcc2]
        rw [if_neg hmem]
      unfold read_string
      simp only [hloop]
      rw [advance_line, advance_line, hc2, hc1]

theorem claim_C7_witness :
    read_char_literal (init_scanner newAnalyzer ("'\\n'")).cur =
      .ok (⟨.CHAR_LITERAL, .str (String.mk ['\\', 'n']),
        (init_scanner newAnalyzer ("'\\n'")).cur.line,
        (init_scanner newAnalyzer ("'\\n'")).cur.column⟩,
        advance (advance (advance (advance
          (init_scanner newAnalyzer ("'\\n'")).cur)))) :=
  (claim_C7_amended.2.1 (init_scanner newAnalyzer ("'\\n'")).cur 'n' []
    (by rfl)).1 (by decide)

/-- Claim C7 counterexample: the claim says both literal kinds accept the
escape set containing the double quote; but the character literal reader
checks the set with the apostrophe instead, so the character literal
consisting of a backslash-double-quote escape raises `Invalid escape
sequence`, even though the double quote is in the string escape set. -/
theorem claim_C7_counterexample :
    (tokenize newAnalyzer ("'\\\"'")).1 =
      ([], some ⟨("Invalid escape sequence"), 1, 4⟩) ∧
    ('"' ∈ stringEscapes) := by
  decide

theorem number_loop_some (fuel : Nat) (c : Cursor) (acc : String) (isF : Bool)
    (ch : Char) (hcc : c.currentChar = some ch) :
    number_loop (fuel + 1) c acc isF =
      (if ch = '.' then
        if isF then .error ⟨("Invalid float literal"), c.line, c.column⟩
        else number_loop fuel (advance c) (acc.push ch) true
      else if pyIsDigit ch then number_loop fuel (advance c) (acc.push ch) isF
      else .ok (acc, isF, c)) := by
  conv_lhs => rw [number_loop]
  rw [hcc]

theorem number_loop_none (fuel : Nat) (c : Cursor) (acc : String) (isF : Bool)
    (hcc : c.currentChar = Option.none) :
    number_loop (fuel + 1) c acc isF = .ok (acc, isF, c) := by
  conv_lhs => rw [number_loop]
  rw [hcc]

theorem push_append_mk (acc : String) (d : Char) (ds : List Char) :
    (acc.push d).append (String.mk ds) = acc.append (String.mk (d :: ds)) := by
  cases acc
  simp [String.push, String.append]

theorem append_mk_nil (acc : String) : acc.append (String.mk []) = acc := by
  cases acc
  simp [String.append]

theorem digit_ne_dot (d : Char) (h : pyIsDigit d = true) : d ≠ '.' := by
  intro he
  rw [he] at h
  exact absurd h (by decide)

theorem number_loop_digits : ∀ (ds : List Char) (fuel : Nat) (c : Cursor)
    (acc : String) (isF : Bool) (rest : List Char),
    (∀ d ∈ ds, pyIsDigit d = true) → rem c = ds ++ rest → ds.length ≤ fuel →
    ∃ fuel' c', fuel = fuel' + ds.length ∧ rem c' = rest ∧ c'.line = c.line ∧
      number_loop fuel c acc isF = number_loop fuel' c' (acc.append (String.mk ds)) isF := by
  intro ds
  induction ds with
  | nil =>
    intro fuel c acc isF rest hd hrem hlen
    refine ⟨fuel, c, rfl, by simpa using hrem, rfl, by rw [append_mk_nil]⟩
  | cons d ds ih =>
    intro fuel c acc isF rest hd hrem hlen
    cases fuel with
    | zero => simp at hlen
    | succ f =>
      obtain ⟨hcc, hadv⟩ := rem_cons c d (ds ++ rest) hrem
      have hdd : pyIsDigit d = true := hd d (by simp)
      rw [number_loop_some f c acc isF d hcc, if_neg (digit_ne_dot d hdd), if_pos hdd]
      obtain ⟨fuel', c', hf, hr, hl, heq⟩ := ih f (advance c) (acc.push d) isF rest
        (fun x hx => hd x (by simp [hx])) hadv (by simp at hlen; omega)
      refine ⟨fuel', c', by simp; omega, hr, by rw [hl, advance_line], ?_⟩
      rw [heq, push_append_mk]

theorem pyFloat_digits_dot (ds : List Char) (h : ∀ d ∈ ds, pyIsDigit d = true) :
    pyFloat (String.mk (ds ++ ['.'])) = ⟨decodeDigits ds, 0⟩ := by
  unfold pyFloat
  have htake : (ds ++ ['.']).takeWhile (fun ch => ch != '.') = ds := by
    induction ds with
    | nil => simp [List.takeWhile]
    | cons d rest ih =>
      rw [List.cons_append, List.takeWhile_cons]
      have hne : (d != '.') = true := by
        simp only [bne_iff_ne, ne_eq]
        exact digit_ne_dot d (h d (by simp))
      rw [hne]
      simp only [if_true]
      rw [ih (fun x hx => h x (by simp [hx]))]
  have hdrop : (ds ++ ['.']).dropWhile (fun ch => ch != '.') = ['.'] := by
    clear htake
    induction ds with
    | nil => simp [List.dropWhile]
    | cons d rest ih =>
      rw [List.cons_append, List.dropWhile_cons]
      have hne : (d != '.') = true := by
        simp only [bne_iff_ne, ne_eq]
        exact digit_ne_dot d (h d (by simp))
      rw [hne]
      simp only [if_true]
      exact ih (fun x hx => h x (by simp [hx]))
  show (⟨decodeDigits _, _⟩ : PyFloat) = _
  rw [show (String.mk (ds ++ ['.'])).toList = ds ++ ['.'] from rfl, htake, hdrop]
  simp

/-- Claim C9: the number reader accepts a trailing decimal point: when the
remaining input is a nonempty digit run, a single dot, and then the end of
input or a character that is neither a digit nor a dot, scanning succeeds
with a FLOAT_LITERAL token whose value is the decoded float — the exact value
written by the digits (5.0 for the input `5.`) — and no lexical error. -/
theorem claim_C9 (fuel : Nat) (c : Cursor) (ds rest : List Char)
    (hds : ∀ d ∈ ds, pyIsDigit d = true) (hne : ds ≠ [])
    (hrem : rem c = ds ++ '.' :: rest)
    (hrest : rest = [] ∨ ∃ r rs, rest = r :: rs ∧ pyIsDigit r = false ∧ r ≠ '.')
    (hfuel : ds.length + 2 ≤ fuel) :
    ∃ c2, read_number fuel c = .ok
      (⟨.FLOAT_LITERAL, .float ⟨decodeDigits ds, 0⟩, c.line, c.column⟩, c2) ∧
      rem c2 = rest ∧
      (⟨decodeDigits ds, 0⟩ : PyFloat).toRat = (decodeDigits ds : ℚ) := by
  obtain ⟨fuel', c', hf, hr, hl, heq⟩ :=
    number_loop_digits ds fuel c ("") false ('.' :: rest) hds hrem (by omega)
  have hfuel' : 2 ≤ fuel' := by omega
  obtain ⟨hcc', hadv'⟩ := rem_cons c' '.' rest hr
  cases fuel' with
  | zero => omega
  | succ f =>
    rw [number_loop_some f c' _ false '.' hcc', if_pos rfl, if_neg (by simp)] at heq
    have hstop : number_loop f (advance c') ((("").append (String.mk ds)).push '.') true =
        .ok ((("").append (String.mk ds)).push '.', true, advance c') := by
      rcases hrest with hnil | ⟨r, rs, hrr, hrd, hrdot⟩
      · have hccn : (advance c').currentChar = Option.none := by
          rw [hnil] at hadv'
          exact (rem_nil_iff _).mp hadv'
        cases f with
        | zero => rw [number_loop]
        | succ g => exact number_loop_none g (advance c') _ true hccn
      · rw [hrr] at hadv'
        obtain ⟨hccr, _⟩ := rem_cons (advance c') r rs hadv'
        cases f with
        | zero => omega
        | succ g =>
          rw [number_loop_some g (advance c') _ true r hccr,
            if_neg hrdot, if_neg (by rw [hrd]; simp)]
    rw [hstop] at heq
    have hval : (("").append (String.mk ds)).push '.' = String.mk (ds ++ ['.']) := by
      cases ds <;> rfl
    refine ⟨advance c', ?_, by rw [hadv'], by simp [PyFloat.toRat]⟩
    unfold read_number
    rw [heq]
    simp only []
    rw [if_pos trivial]
    rw [hval, pyFloat_digits_dot ds hds]
    have hline : (advance c').line = c.line := by rw [advance_line, hl]
    rw [hline]

theorem claim_C9_witness :
    ∃ c2, read_number 3 (init_scanner newAnalyzer ("5.")).cur = .ok
      (⟨.FLOAT_LITERAL, .float ⟨decodeDigits ['5'], 0⟩,
        (init_scanner newAnalyzer ("5.")).cur.line,
        (init_scanner newAnalyzer ("5.")).cur.column⟩, c2) ∧
      rem c2 = [] ∧
      (⟨decodeDigits ['5'], 0⟩ : PyFloat).toRat = (decodeDigits ['5'] : ℚ) :=
  claim_C9 3 (init_scanner newAnalyzer ("5.")).cur ['5'] []
    (by decide) (by decide) (by rfl) (Or.inl rfl) (by decide)

theorem init_scanner_rem (a : LexicalAnalyzer) (src : String) :
    rem (init_scanner a src).cur = src.toList := by
  unfold init_scanner
  cases hsrc : src.toList with
  | nil => rfl
  | cons x xs =>
    unfold advance rem
    rw [if_neg (by simp)]
    simp

/-- Claim C8: for every input consisting only of whitespace and well-formed
comments (single-line comments and properly closed multi-line comments),
tokenize succeeds and the output token sequence is exactly the EOF token. -/
theorem claim_C8 (a : LexicalAnalyzer) (src : String) (hb : Blank src.toList) :
    ∃ t, (tokenize a src).1 = ([t], Option.none) ∧ t.type = .EOF ∧ t.value = .none := by
  have hrem := init_scanner_rem a src
  have hlist : src.toList.length = src.length := rfl
  obtain ⟨t, c', hgnt, hty, hval⟩ :=
    get_next_token_blank ((src.length + 1) + 1) (init_scanner a src).cur
      (init_scanner a src).symbolTable
      (by rw [hrem]; omega) (by rw [hrem]; exact hb)
  refine ⟨t, ?_, hty, hval⟩
  simp only [tokenize]
  rw [show lexFuel src = (src.length + 1) + 1 from rfl, tokenize_loop_succ, hgnt]
  simp [hty]

theorem claim_C8_witness :
    ∃ t, (tokenize newAnalyzer (" /*a*/ //b")).1 = ([t], Option.none) ∧
      t.type = .EOF ∧ t.value = .none := by
  apply claim_C8 newAnalyzer (" /*a*/ //b")
  show Blank (' ' :: ('/' :: '*' :: (['a'] ++ '*' :: '/' ::
    (' ' :: ('/' :: '/' :: ['b'])))))
  exact Blank.ws ' ' _ (by decide)
    (Blank.blockComment ['a'] _ (by decide)
      (Blank.ws ' ' _ (by decide)
        (Blank.lineCommentAtEnd ['b'] (by decide))))

end Lab06
